import Mathlib

/-!
Verification of the IMDB-review EDA front ends.

Shallow embedding of the two client-side variants:
* `docs/main.js` (the Chart.js variant): `sanitizeText`, `tokenize`,
  `computeMetrics`, `topEntries`, `parseCsvText`;
* `components/SentimentAnalysis.tsx` (the React variant): `loadData`'s row
  mapping, the word split inside `analyzeSentiment`, and `analyzeSentiment`.

Strings are modelled as `List Char`.  A JS `Map` is modelled as an
association list in first-insertion order (its iteration order).  The plain
object used as a dictionary by the React variant is modelled as an
association list in property-creation order, and its `Object.values`
enumeration order — array-index keys first in ascending numeric order, then
the remaining string keys in creation order — is realized by `objectValues`.
JS numbers for the average computations are modelled as `ℚ`;
the log-odds scores of the batch variant (absent from the sources, modelled
from the spec) use `ℝ` because of `ln`.
-/

/-- The character class of the JS regex `\s` (restricted to the whitespace
characters relevant here: ASCII whitespace and no-break space). -/
def jsIsSpace (c : Char) : Bool :=
  c == ' ' || c == '\t' || c == '\n' || c == '\r' || c == '\x0b' || c == '\x0c' || c == '\u00A0'

/-- The character class `[a-z]`. -/
def isAsciiLower (c : Char) : Bool :=
  97 ≤ c.toNat && c.toNat ≤ 122

/-- `String.prototype.toLowerCase`, character by character (ASCII case map). -/
def jsToLower (c : Char) : Char :=
  if 65 ≤ c.toNat && c.toNat ≤ 90 then Char.ofNat (c.toNat + 32) else c

/-- The character class of the JS regex `\w`: `[A-Za-z0-9_]`. -/
def isWordChar (c : Char) : Bool :=
  isAsciiLower c || (65 ≤ c.toNat && c.toNat ≤ 90) || (48 ≤ c.toNat && c.toNat ≤ 57) || c == '_'

/-- `p` is a literal prefix of `s` (used for the literal part of the URL regex). -/
def prefixMatch : List Char → List Char → Bool
  | [], _ => true
  | _ :: _, [] => false
  | p :: ps, c :: cs => p == c && prefixMatch ps cs

/-- Length of the match of the regex `https?:\/\/\S+` at the start of `s`
(`none` when the regex does not match at this position).  The optional `s` is
greedy, and `\S+` consumes the maximal run of non-whitespace characters. -/
def urlMatchLen (s : List Char) : Option Nat :=
  let scheme : Option Nat :=
    if prefixMatch ('h' :: 't' :: 't' :: 'p' :: 's' :: ':' :: '/' :: '/' :: []) s then some 8
    else if prefixMatch ('h' :: 't' :: 't' :: 'p' :: ':' :: '/' :: '/' :: []) s then some 7
    else none
  match scheme with
  | none => none
  | some k =>
    let body := (s.drop k).takeWhile (fun c => !(jsIsSpace c))
    if body.isEmpty then none else some (k + body.length)

/-- `.replace(/https?:\/\/\S+/g, ' ')`: scan left to right, replace each match
by one space and continue after it.  The fuel argument (instantiated with the
string length, which bounds the number of scan steps) makes the recursion
structural. -/
def stripUrlsAux : Nat → List Char → List Char
  | _, [] => []
  | 0, s => s
  | fuel + 1, c :: cs =>
    match urlMatchLen (c :: cs) with
    | some n => ' ' :: stripUrlsAux fuel ((c :: cs).drop n)
    | none => c :: stripUrlsAux fuel cs

def stripUrls (s : List Char) : List Char :=
  stripUrlsAux s.length s

/-- One character of `.replace(/[^a-z\s]/g, ' ')`. -/
def replaceChar (c : Char) : Char :=
  if isAsciiLower c || jsIsSpace c then c else ' '

/-- `.replace(/[^a-z\s]/g, ' ')`. -/
def replaceNonAlpha (s : List Char) : List Char :=
  s.map replaceChar

/-- `.replace(/\s+/g, ' ')`: each maximal run of whitespace becomes a single
space.  The Boolean state records whether the previous character was
whitespace (so that the rest of a run is dropped). -/
def collapseSpacesAux : Bool → List Char → List Char
  | _, [] => []
  | prevSpace, c :: cs =>
    if jsIsSpace c then
      if prevSpace then collapseSpacesAux true cs
      else ' ' :: collapseSpacesAux true cs
    else c :: collapseSpacesAux false cs

def collapseSpaces (s : List Char) : List Char :=
  collapseSpacesAux false s

/-- Remove trailing whitespace (the right half of `.trim()`). -/
def trimTrailing : List Char → List Char
  | [] => []
  | c :: cs =>
    let t := trimTrailing cs
    if t.isEmpty && jsIsSpace c then [] else c :: t

/-- `.trim()`: drop leading and trailing whitespace. -/
def jsTrim (s : List Char) : List Char :=
  trimTrailing (s.dropWhile jsIsSpace)

/-- `sanitizeText` of `docs/main.js`:
`String(text).toLowerCase().replace(/https?:\/\/\S+/g, ' ')
.replace(/[^a-z\s]/g, ' ').replace(/\s+/g, ' ').trim()`,
with the early return of the empty string for empty input. -/
def sanitizeText (text : List Char) : List Char :=
  if text.isEmpty then []
  else jsTrim (collapseSpaces (replaceNonAlpha (stripUrls (text.map jsToLower))))

/-- `String.prototype.split(' ')`: split at every single space character
(adjacent separators produce empty pieces, and `''.split(' ')` is `['']`). -/
def splitOnSpace : List Char → List (List Char)
  | [] => [[]]
  | c :: cs =>
    if c == ' ' then [] :: splitOnSpace cs
    else
      match splitOnSpace cs with
      | [] => [[c]]
      | t :: ts => (c :: t) :: ts

/-- The stopword set of `docs/main.js` (`ENGLISH_STOPWORDS`). -/
def ENGLISH_STOPWORDS : List String :=
  ["a", "an", "the", "and", "or", "but", "if", "then", "else", "when", "at", "by",
   "for", "with", "about", "against", "between", "into", "through", "during",
   "before", "after", "to", "from", "up", "down", "in", "out", "on", "off",
   "over", "under", "again", "further", "once", "here", "there", "all", "any",
   "both", "each", "few", "more", "most", "other", "some", "such", "no", "nor",
   "not", "only", "own", "same", "so", "than", "too", "very", "can", "will",
   "just", "don", "should", "now", "is", "am", "are", "was", "were", "be",
   "been", "being", "do", "does", "did", "having", "have", "has", "i", "me",
   "my", "myself", "we", "our", "ours", "ourselves", "you", "your", "yours",
   "yourself", "yourselves", "he", "him", "his", "himself", "she", "her",
   "hers", "herself", "it", "its", "itself", "they", "them", "their", "theirs",
   "themselves", "what", "which", "who", "whom", "this", "that", "these",
   "those", "because", "why", "how"]

/-- `ENGLISH_STOPWORDS.has(w)`. -/
def isStopword (w : List Char) : Bool :=
  ENGLISH_STOPWORDS.any (fun s => s.data == w)

/-- `tokenize` of `docs/main.js`: sanitize, split on spaces, keep truthy
(non-empty) words that are not stopwords. -/
def tokenize (text : List Char) : List (List Char) :=
  let clean := sanitizeText text
  if clean.isEmpty then []
  else (splitOnSpace clean).filter (fun w => !w.isEmpty && !isStopword w)

/-- Modelled from the spec: the tokenizer configuration `removeStopwords =
false` of section 4.1 (the sources in `src/` hard-code stopword removal;
the spec's idempotence property is stated for the configuration without it). -/
def tokenizeKeepStop (text : List Char) : List (List Char) :=
  let clean := sanitizeText text
  if clean.isEmpty then []
  else (splitOnSpace clean).filter (fun w => !w.isEmpty)

/-- `tokens.join(' ')`. -/
def joinWithSpace : List (List Char) → List Char
  | [] => []
  | [w] => w
  | w :: ws => w ++ ' ' :: joinWithSpace ws

/-- A token as produced by the tokenizers: non-empty, all lowercase letters. -/
def goodWord (w : List Char) : Prop :=
  w ≠ [] ∧ ∀ c ∈ w, isAsciiLower c = true

/-- A parsed CSV row as delivered by Papa Parse with `header: true`: each of
the five column names of interest is present with a string value or absent. -/
structure CsvRow where
  review : Option String
  text : Option String
  content : Option String
  sentiment : Option String
  label : Option String
deriving DecidableEq

/-- `row.review ?? row.text ?? row.content ?? ''` (from `computeMetrics`). -/
def rowReview (r : CsvRow) : String :=
  r.review.getD (r.text.getD (r.content.getD ""))

/-- `String(row.sentiment ?? row.label ?? '').toLowerCase()`. -/
def rowSentimentLower (r : CsvRow) : List Char :=
  ((r.sentiment.getD (r.label.getD "")).data).map jsToLower

/-- `sentiment === 'positive' || sentiment === 'pos'`. -/
def posLabel (s : List Char) : Bool :=
  s == "positive".data || s == "pos".data

/-- `sentiment === 'negative' || sentiment === 'neg'`. -/
def negLabel (s : List Char) : Bool :=
  s == "negative".data || s == "neg".data

/-- `map.set(t, (map.get(t) || 0) + 1)` on an insertion-ordered `Map`:
increment an existing key in place, append a new key at the end. -/
def freqIncr (m : List (List Char × Nat)) (t : List Char) : List (List Char × Nat) :=
  match m with
  | [] => [(t, 1)]
  | (k, v) :: rest => if k = t then (k, v + 1) :: rest else (k, v) :: freqIncr rest t

/-- The accumulator of `computeMetrics` in `docs/main.js`. -/
structure Metrics where
  total : Nat
  lengthsOverall : List Nat
  lengthsPos : List Nat
  lengthsNeg : List Nat
  posCount : Nat
  negCount : Nat
  posFreq : List (List Char × Nat)
  negFreq : List (List Char × Nat)
deriving DecidableEq

/-- The body of the `for (const row of rows)` loop of `computeMetrics`. -/
def stepRow (acc : Metrics) (row : CsvRow) : Metrics :=
  let sentiment := rowSentimentLower row
  let tokens := tokenize (rowReview row).data
  let len := tokens.length
  let acc1 := { acc with lengthsOverall := acc.lengthsOverall ++ [len] }
  if posLabel sentiment then
    { acc1 with
      posCount := acc1.posCount + 1
      lengthsPos := acc1.lengthsPos ++ [len]
      posFreq := tokens.foldl freqIncr acc1.posFreq }
  else if negLabel sentiment then
    { acc1 with
      negCount := acc1.negCount + 1
      lengthsNeg := acc1.lengthsNeg ++ [len]
      negFreq := tokens.foldl freqIncr acc1.negFreq }
  else acc1

/-- `computeMetrics` of `docs/main.js` (the counting pass; the averages are in
`computeMetricsOut`). -/
def computeMetrics (rows : List CsvRow) : Metrics :=
  rows.foldl stepRow
    { total := rows.length, lengthsOverall := [], lengthsPos := [], lengthsNeg := [],
      posCount := 0, negCount := 0, posFreq := [], negFreq := [] }

/-- `const avg = arr => (arr.length ? (arr.reduce((a,b)=>a+b,0) / arr.length) : 0)`. -/
def avgQ (arr : List Nat) : ℚ :=
  if arr.length = 0 then 0 else (arr.sum : ℚ) / (arr.length : ℚ)

/-- The full return value of `computeMetrics` (counts plus averages). -/
structure MetricsOut where
  metrics : Metrics
  avgOverall : ℚ
  avgPos : ℚ
  avgNeg : ℚ

def computeMetricsOut (rows : List CsvRow) : MetricsOut :=
  let r := computeMetrics rows
  ⟨r, avgQ r.lengthsOverall, avgQ r.lengthsPos, avgQ r.lengthsNeg⟩

/-- Stable insertion (descending by `key`): `x` goes before the first element
whose key is not larger than `x`'s, so earlier list elements win ties. -/
def insertDescBy {α : Type} (key : α → Nat) (x : α) : List α → List α
  | [] => [x]
  | y :: ys => if key y ≤ key x then x :: y :: ys else y :: insertDescBy key x ys

/-- Stable sort, descending by `key`.  `Array.prototype.sort` with comparator
`(a, b) => key(b) - key(a)` is required to be stable (ES2019), and a stable
sort result is unique, so stable insertion sort is a faithful model. -/
def sortDescBy {α : Type} (key : α → Nat) : List α → List α
  | [] => []
  | x :: xs => insertDescBy key x (sortDescBy key xs)

/-- `topEntries` of `docs/main.js`:
`Array.from(map.entries()).sort((a,b) => b[1] - a[1]).slice(0, n)`. -/
def topEntries (m : List (List Char × Nat)) (n : Nat) : List (List Char × Nat) :=
  (sortDescBy Prod.snd m).take n

/-- Sum of the values of a frequency table. -/
def sumValues (m : List (List Char × Nat)) : Nat :=
  (m.map Prod.snd).sum

/-- A row after the `map` step of `parseCsvText` in `docs/main.js`. -/
structure ParsedRow where
  review : Option String
  sentiment : Option String
deriving DecidableEq

/-- The row pipeline of `parseCsvText` in `docs/main.js`:
`res.data.map(r => ({review: r.review ?? r.text ?? r.content,
sentiment: r.sentiment ?? r.label}))
.filter(r => typeof r.review === 'string' && r.review.length > 0 && r.sentiment)`. -/
def parseCsvRows (rows : List CsvRow) : List ParsedRow :=
  (rows.map (fun r =>
      ({ review := (r.review.orElse fun _ => r.text.orElse fun _ => r.content),
         sentiment := (r.sentiment.orElse fun _ => r.label) } : ParsedRow))).filter
    (fun p =>
      (match p.review with | some s => !s.isEmpty | none => false) &&
      (match p.sentiment with | some s => !s.isEmpty | none => false))

/-- A message of `SentimentAnalysis.tsx` (text and sentiment lowercased). -/
structure Message where
  text : List Char
  sentiment : List Char
deriving DecidableEq

/-- The row pipeline of `loadData` in `SentimentAnalysis.tsx`:
`results.data.filter(row => row.review && row.sentiment)
.map(row => ({text: row.review.toString().toLowerCase(),
sentiment: row.sentiment.toString().toLowerCase()}))`
(only the `review` and `sentiment` columns are read; no aliases). -/
def loadDataRows (rows : List CsvRow) : List Message :=
  ((rows.filter (fun r =>
      (match r.review with | some s => !s.isEmpty | none => false) &&
      (match r.sentiment with | some s => !s.isEmpty | none => false))).map
    (fun r =>
      ({ text := ((r.review.getD "").data).map jsToLower,
         sentiment := ((r.sentiment.getD "").data).map jsToLower } : Message)))

/-- The word split of `analyzeSentiment` in `SentimentAnalysis.tsx`:
`message.text.replace(/[^\w\s]/g, '').split(/\s+/)
.filter(word => word.length >= appliedMinWordLength)`.
The `\w` class keeps digits and underscores, and punctuation is deleted
outright (not replaced by a space).  `split(/\s+/)` splits at maximal
whitespace runs, which is splitting at single spaces after collapsing runs. -/
def splitWords (text : List Char) (minLen : Nat) : List (List Char) :=
  (splitOnSpace (collapseSpaces (text.filter (fun c => isWordChar c || jsIsSpace c)))).filter
    (fun w => minLen ≤ w.length)

/-- One entry of the `wordFrequency` dictionary of `SentimentAnalysis.tsx`. -/
structure WordStats where
  word : List Char
  positive : Nat
  negative : Nat
  total : Nat
deriving DecidableEq

/-- The per-word increment: `positive++` when the message sentiment is
`'positive'`, otherwise `negative++` (any other sentiment, `'neutral'`
included, falls into the `else` branch); always `total++`. -/
def tallyWord (isPos : Bool) (e : WordStats) : WordStats :=
  if isPos then { e with positive := e.positive + 1, total := e.total + 1 }
  else { e with negative := e.negative + 1, total := e.total + 1 }

/-- Create-if-absent then increment; a new key is created at the end of the
property-creation order. -/
def bumpWord (isPos : Bool) (m : List WordStats) (w : List Char) : List WordStats :=
  match m with
  | [] => [tallyWord isPos ⟨w, 0, 0, 0⟩]
  | e :: rest => if e.word = w then tallyWord isPos e :: rest else e :: bumpWord isPos rest w

/-- The `wordFrequency` dictionary after the double `forEach` of
`analyzeSentiment`, with entries in property-creation order (enumeration
order is taken at `Object.values`: see `objectValues`). -/
def wordFrequencyOf (messages : List Message) (minLen : Nat) : List WordStats :=
  messages.foldl
    (fun acc msg =>
      (splitWords msg.text minLen).foldl
        (fun a w => bumpWord (msg.sentiment == "positive".data) a w) acc)
    []

/-- The character class `[0-9]`. -/
def isAsciiDigit (c : Char) : Bool :=
  48 ≤ c.toNat && c.toNat ≤ 57

/-- Numeric value of a digit string. -/
def digitsToNat (w : List Char) : Nat :=
  w.foldl (fun n c => n * 10 + (c.toNat - 48)) 0

/-- Whether a property key is an ECMAScript array index: the canonical
decimal form (no leading zero except `"0"` itself) of an integer below
`2^32 - 1`.  `Object.values` enumerates such keys first, in ascending
numeric order, before the other string keys. -/
def isJsArrayIndex (w : List Char) : Bool :=
  match w with
  | [] => false
  | c :: cs =>
    (c :: cs).all isAsciiDigit && ((c != '0') || cs.isEmpty) &&
      digitsToNat (c :: cs) < 4294967295

/-- Insertion sort step, ascending by `key`, for the array-index part of the
JS property order (object keys are distinct, so no two array-index keys share
a numeric value and stability is immaterial there). -/
def insertAscBy {α : Type} (key : α → Nat) (x : α) : List α → List α
  | [] => [x]
  | y :: ys => if key x ≤ key y then x :: y :: ys else y :: insertAscBy key x ys

def sortAscBy {α : Type} (key : α → Nat) : List α → List α
  | [] => []
  | x :: xs => insertAscBy key x (sortAscBy key xs)

/-- `Object.values(wordFrequency)`: ECMAScript plain-object property order —
array-index keys first in ascending numeric order, then the remaining string
keys in property-creation order. -/
def objectValues (m : List WordStats) : List WordStats :=
  sortAscBy (fun e => digitsToNat e.word) (m.filter (fun e => isJsArrayIndex e.word)) ++
    m.filter (fun e => !(isJsArrayIndex e.word))

/-- All words surviving the length filter, across all messages in order. -/
def allWords (messages : List Message) (minLen : Nat) : List (List Char) :=
  (messages.map (fun m => splitWords m.text minLen)).flatten

/-- The stats record produced by `analyzeSentiment`. -/
structure SentimentStats where
  positiveCount : Nat
  negativeCount : Nat
  avgLengthPositive : ℚ
  avgLengthNegative : ℚ
  topWords : List WordStats

/-- `analyzeSentiment` of `SentimentAnalysis.tsx`; `topWords` is
`Object.values(wordFrequency).sort((a,b) => b.total - a.total).slice(0, 20)`,
with the `Object.values` property order given by `objectValues`. -/
def analyzeSentiment (messages : List Message) (minLen : Nat) : SentimentStats :=
  let positiveMessages := messages.filter (fun m => m.sentiment == "positive".data)
  let negativeMessages := messages.filter (fun m => m.sentiment == "negative".data)
  let avgLengthPositive : ℚ :=
    if 0 < positiveMessages.length then
      (((positiveMessages.map (fun m => m.text.length)).sum : ℚ) / (positiveMessages.length : ℚ))
    else 0
  let avgLengthNegative : ℚ :=
    if 0 < negativeMessages.length then
      (((negativeMessages.map (fun m => m.text.length)).sum : ℚ) / (negativeMessages.length : ℚ))
    else 0
  let wordFrequency := wordFrequencyOf messages minLen
  { positiveCount := positiveMessages.length
    negativeCount := negativeMessages.length
    avgLengthPositive := avgLengthPositive
    avgLengthNegative := avgLengthNegative
    topWords := (sortDescBy WordStats.total (objectValues wordFrequency)).take 20 }

/-- Sum of the `total` fields of the word table. -/
def sumTotals (m : List WordStats) : Nat :=
  (m.map WordStats.total).sum

/-- Modelled from the spec: the association scorer of the batch variant
(`src/generate_eda.py`, not present under `src/`), section 4.3 of the spec:
`a = freqPos[t] + α`, `b = (totalPosTokens − freqPos[t]) + α`,
`c = freqNeg[t] + α`, `d = (totalNegTokens − freqNeg[t]) + α`,
`logOdds(t) = ln(a/b) − ln(c/d)`. -/
noncomputable def logOdds (alpha fp fn tp tn : ℝ) : ℝ :=
  Real.log ((fp + alpha) / ((tp - fp) + alpha)) - Real.log ((fn + alpha) / ((tn - fn) + alpha))

/-! ### Character-class lemmas -/

lemma isSpace_cases {c : Char} (h : jsIsSpace c = true) :
    c = ' ' ∨ c = '\t' ∨ c = '\n' ∨ c = '\r' ∨ c = '\x0b' ∨ c = '\x0c' ∨ c = ' ' := by
  simpa [jsIsSpace, or_assoc] using h

lemma lower_not_space {c : Char} (h : isAsciiLower c = true) : jsIsSpace c = false := by
  cases hs : jsIsSpace c
  · rfl
  · rcases isSpace_cases hs with rfl | rfl | rfl | rfl | rfl | rfl | rfl <;>
      exact absurd h (by decide)

lemma space_isSpace : jsIsSpace ' ' = true := by decide

lemma toLower_id_of_lower {c : Char} (h : isAsciiLower c = true) : jsToLower c = c := by
  have h' : 97 ≤ c.toNat ∧ c.toNat ≤ 122 := by simpa [isAsciiLower] using h
  have hcond : ¬((65 ≤ c.toNat && c.toNat ≤ 90) = true) := by
    simp only [Bool.and_eq_true, decide_eq_true_eq, not_and, not_le]
    intro _
    omega
  simp [jsToLower, hcond]

lemma toLower_id_space : jsToLower ' ' = ' ' := by decide

lemma lower_ne_space {c : Char} (h : isAsciiLower c = true) : c ≠ ' ' := by
  rintro rfl
  exact absurd h (by decide)

/-! ### The stable descending sort (`topEntries` and `topWords`) -/

lemma mem_insertDescBy {α : Type} (key : α → Nat) (x : α) (l : List α) (z : α) :
    z ∈ insertDescBy key x l ↔ z = x ∨ z ∈ l := by
  induction l with
  | nil => simp [insertDescBy]
  | cons y ys ih =>
    by_cases h : key y ≤ key x
    · simp only [insertDescBy, if_pos h, List.mem_cons]
    · simp only [insertDescBy, if_neg h, List.mem_cons, ih]
      tauto

lemma perm_insertDescBy {α : Type} (key : α → Nat) (x : α) (l : List α) :
    List.Perm (insertDescBy key x l) (x :: l) := by
  induction l with
  | nil => simp [insertDescBy]
  | cons y ys ih =>
    by_cases h : key y ≤ key x
    · simp [insertDescBy, h]
    · simp only [insertDescBy, if_neg h]
      exact (ih.cons y).trans (List.Perm.swap x y ys)

lemma perm_sortDescBy {α : Type} (key : α → Nat) (l : List α) :
    List.Perm (sortDescBy key l) l := by
  induction l with
  | nil => simp [sortDescBy]
  | cons x xs ih =>
    exact (perm_insertDescBy key x (sortDescBy key xs)).trans (ih.cons x)

lemma pairwise_insertDescBy {α : Type} (key : α → Nat) (x : α) (l : List α)
    (h : l.Pairwise (fun a b => key b ≤ key a)) :
    (insertDescBy key x l).Pairwise (fun a b => key b ≤ key a) := by
  induction l with
  | nil => simp [insertDescBy]
  | cons y ys ih =>
    rcases List.pairwise_cons.1 h with ⟨hy, hys⟩
    by_cases hk : key y ≤ key x
    · simp only [insertDescBy, if_pos hk]
      refine List.pairwise_cons.2 ⟨?_, h⟩
      intro z hz
      rcases List.mem_cons.1 hz with rfl | hz
      · exact hk
      · exact le_trans (hy z hz) hk
    · simp only [insertDescBy, if_neg hk]
      refine List.pairwise_cons.2 ⟨?_, ih hys⟩
      intro z hz
      rcases (mem_insertDescBy key x ys z).1 hz with rfl | hz
      · exact le_of_lt (lt_of_not_le hk)
      · exact hy z hz

lemma pairwise_sortDescBy {α : Type} (key : α → Nat) (l : List α) :
    (sortDescBy key l).Pairwise (fun a b => key b ≤ key a) := by
  induction l with
  | nil => simp [sortDescBy]
  | cons x xs ih => exact pairwise_insertDescBy key x _ ih

lemma filter_insertDescBy {α : Type} (key : α → Nat) (x : α) (l : List α) (c : Nat) :
    (insertDescBy key x l).filter (fun e => key e == c) =
      if key x == c then x :: l.filter (fun e => key e == c)
      else l.filter (fun e => key e == c) := by
  induction l with
  | nil =>
    by_cases hx : (key x == c) = true <;> simp [insertDescBy, List.filter_cons, hx]
  | cons y ys ih =>
    by_cases hk : key y ≤ key x
    · simp only [insertDescBy, if_pos hk, List.filter_cons]
    · simp only [insertDescBy, if_neg hk, List.filter_cons, ih]
      by_cases hx : (key x == c) = true
      · have hxc : key x = c := by simpa using hx
        have hyc : ¬((key y == c) = true) := by
          simp only [beq_iff_eq]
          have := lt_of_not_le hk
          omega
        simp [hx, hyc]
      · simp [hx]

lemma filter_sortDescBy {α : Type} (key : α → Nat) (l : List α) (c : Nat) :
    (sortDescBy key l).filter (fun e => key e == c) = l.filter (fun e => key e == c) := by
  induction l with
  | nil => rfl
  | cons x xs ih =>
    simp only [sortDescBy, filter_insertDescBy, List.filter_cons, ih]

lemma freqIncr_keys (m : List (List Char × Nat)) (t : List Char) :
    (freqIncr m t).map Prod.fst =
      if t ∈ m.map Prod.fst then m.map Prod.fst else m.map Prod.fst ++ [t] := by
  induction m with
  | nil => simp [freqIncr]
  | cons e rest ih =>
    obtain ⟨k, v⟩ := e
    by_cases hk : k = t
    · subst hk
      simp [freqIncr]
    · have hk' : ¬(t = k) := fun h => hk h.symm
      simp only [freqIncr, if_neg hk, List.map_cons, ih, List.mem_cons]
      by_cases hm : t ∈ rest.map Prod.fst
      · simp [hm, hk']
      · simp [hm, hk']

/-! ### Characters of sanitized text -/

lemma mem_replaceNonAlpha {s : List Char} {c : Char} (h : c ∈ replaceNonAlpha s) :
    isAsciiLower c = true ∨ jsIsSpace c = true := by
  rcases List.mem_map.1 h with ⟨d, _, rfl⟩
  by_cases hd : (isAsciiLower d || jsIsSpace d) = true
  · rw [replaceChar, if_pos hd]
    simpa using hd
  · rw [replaceChar, if_neg hd]
    exact Or.inr space_isSpace

lemma mem_collapseSpacesAux :
    ∀ (s : List Char) (b : Bool) {c : Char}, c ∈ collapseSpacesAux b s →
      (c ∈ s ∧ jsIsSpace c = false) ∨ c = ' ' := by
  intro s
  induction s with
  | nil =>
    intro b c h
    simp [collapseSpacesAux] at h
  | cons x xs ih =>
    intro b c h
    by_cases hx : jsIsSpace x = true
    · cases b with
      | true =>
        simp only [collapseSpacesAux, hx, if_true] at h
        rcases ih true h with ⟨h1, h2⟩ | h1
        · exact Or.inl ⟨List.mem_cons_of_mem x h1, h2⟩
        · exact Or.inr h1
      | false =>
        simp only [collapseSpacesAux, hx, if_true, Bool.false_eq_true, if_false,
          List.mem_cons] at h
        rcases h with rfl | h
        · exact Or.inr rfl
        · rcases ih true h with ⟨h1, h2⟩ | h1
          · exact Or.inl ⟨List.mem_cons_of_mem x h1, h2⟩
          · exact Or.inr h1
    · have hx' : jsIsSpace x = false := by
        cases hxx : jsIsSpace x
        · rfl
        · exact absurd hxx hx
      simp only [collapseSpacesAux, hx', Bool.false_eq_true, if_false, List.mem_cons] at h
      rcases h with rfl | h
      · exact Or.inl ⟨List.mem_cons_self _ _, hx'⟩
      · rcases ih false h with ⟨h1, h2⟩ | h1
        · exact Or.inl ⟨List.mem_cons_of_mem x h1, h2⟩
        · exact Or.inr h1

lemma mem_trimTrailing : ∀ {s : List Char} {c : Char}, c ∈ trimTrailing s → c ∈ s := by
  intro s
  induction s with
  | nil => intro c h; simp [trimTrailing] at h
  | cons x xs ih =>
    intro c h
    simp only [trimTrailing] at h
    by_cases hc : ((trimTrailing xs).isEmpty && jsIsSpace x) = true
    · rw [if_pos hc] at h
      simp at h
    · rw [if_neg hc] at h
      rcases List.mem_cons.1 h with rfl | h
      · exact List.mem_cons_self _ _
      · exact List.mem_cons_of_mem x (ih h)

lemma mem_jsTrim {s : List Char} {c : Char} (h : c ∈ jsTrim s) : c ∈ s :=
  (List.dropWhile_sublist jsIsSpace).subset (mem_trimTrailing h)

lemma mem_sanitizeText {t : List Char} {c : Char} (h : c ∈ sanitizeText t) :
    isAsciiLower c = true ∨ c = ' ' := by
  rw [sanitizeText] at h
  by_cases ht : t.isEmpty = true
  · rw [if_pos ht] at h
    simp at h
  · rw [if_neg ht] at h
    rcases mem_collapseSpacesAux _ false (mem_jsTrim h) with ⟨h1, h2⟩ | h1
    · rcases mem_replaceNonAlpha h1 with h3 | h3
      · exact Or.inl h3
      · rw [h3] at h2
        cases h2
    · exact Or.inr h1

lemma splitOnSpace_mem :
    ∀ {s w : List Char}, w ∈ splitOnSpace s → ∀ {c : Char}, c ∈ w → c ∈ s ∧ c ≠ ' ' := by
  intro s
  induction s with
  | nil =>
    intro w hw c hc
    simp only [splitOnSpace, List.mem_singleton] at hw
    subst hw
    simp at hc
  | cons x xs ih =>
    intro w hw c hc
    by_cases hx : (x == ' ') = true
    · simp only [splitOnSpace, hx, if_true, List.mem_cons] at hw
      rcases hw with rfl | hw
      · simp at hc
      · rcases ih hw hc with ⟨h1, h2⟩
        exact ⟨List.mem_cons_of_mem x h1, h2⟩
    · rw [splitOnSpace] at hw
      rw [if_neg hx] at hw
      cases hs : splitOnSpace xs with
      | nil =>
        rw [hs] at hw
        simp only [List.mem_singleton] at hw
        subst hw
        rcases List.mem_cons.1 hc with rfl | hc
        · refine ⟨List.mem_cons_self c xs, ?_⟩
          intro h
          rw [h] at hx
          exact hx rfl
        · simp at hc
      | cons ft fts =>
        rw [hs] at hw
        rcases List.mem_cons.1 hw with rfl | hw
        · rcases List.mem_cons.1 hc with rfl | hc
          · refine ⟨List.mem_cons_self c xs, ?_⟩
            intro h
            rw [h] at hx
            exact hx rfl
          · have hft : ft ∈ splitOnSpace xs := by rw [hs]; exact List.mem_cons_self ft fts
            rcases ih hft hc with ⟨h1, h2⟩
            exact ⟨List.mem_cons_of_mem x h1, h2⟩
        · have hwf : w ∈ splitOnSpace xs := by rw [hs]; exact List.mem_cons_of_mem ft hw
          rcases ih hwf hc with ⟨h1, h2⟩
          exact ⟨List.mem_cons_of_mem x h1, h2⟩

/-- Every token of `tokenize` is a non-empty all-lowercase-alphabetic word and
is not a stopword. -/
lemma tokenize_token_props {t w : List Char} (h : w ∈ tokenize t) :
    w ≠ [] ∧ (∀ c ∈ w, isAsciiLower c = true) ∧ isStopword w = false := by
  rw [tokenize] at h
  by_cases hc : (sanitizeText t).isEmpty = true
  · rw [if_pos hc] at h
    simp at h
  · rw [if_neg hc] at h
    rcases List.mem_filter.1 h with ⟨hsplit, hpred⟩
    simp only [Bool.and_eq_true] at hpred
    obtain ⟨hne, hstop⟩ := hpred
    refine ⟨?_, ?_, ?_⟩
    · intro hnil
      rw [hnil] at hne
      simp at hne
    · intro c hcw
      rcases splitOnSpace_mem hsplit hcw with ⟨h1, h2⟩
      rcases mem_sanitizeText h1 with h3 | h3
      · exact h3
      · exact absurd h3 h2
    · cases hs : isStopword w
      · rfl
      · rw [hs] at hstop
        simp at hstop

/-- Every token of the no-stopword tokenizer is a non-empty all-lowercase
alphabetic word. -/
lemma tokenizeKeepStop_token_props {t w : List Char} (h : w ∈ tokenizeKeepStop t) :
    w ≠ [] ∧ (∀ c ∈ w, isAsciiLower c = true) := by
  rw [tokenizeKeepStop] at h
  by_cases hc : (sanitizeText t).isEmpty = true
  · rw [if_pos hc] at h
    simp at h
  · rw [if_neg hc] at h
    rcases List.mem_filter.1 h with ⟨hsplit, hpred⟩
    refine ⟨?_, ?_⟩
    · intro hnil
      rw [hnil] at hpred
      simp at hpred
    · intro c hcw
      rcases splitOnSpace_mem hsplit hcw with ⟨h1, h2⟩
      rcases mem_sanitizeText h1 with h3 | h3
      · exact h3
      · exact absurd h3 h2

/-! ### Sanitization is the identity on space-joined alphabetic words -/

lemma map_toLower_id {s : List Char} (h : ∀ c ∈ s, isAsciiLower c = true ∨ c = ' ') :
    s.map jsToLower = s := by
  induction s with
  | nil => rfl
  | cons x xs ih =>
    have hx : jsToLower x = x := by
      rcases h x (List.mem_cons_self x xs) with h1 | rfl
      · exact toLower_id_of_lower h1
      · exact toLower_id_space
    simp only [List.map_cons, hx, List.cons.injEq, true_and]
    exact ih (fun c hc => h c (List.mem_cons_of_mem x hc))

lemma prefixMatch_mem :
    ∀ {p s : List Char}, prefixMatch p s = true → ∀ c ∈ p, c ∈ s := by
  intro p
  induction p with
  | nil => intro s _ c hc; simp at hc
  | cons q qs ih =>
    intro s h c hc
    cases s with
    | nil => simp [prefixMatch] at h
    | cons x xs =>
      simp only [prefixMatch, Bool.and_eq_true, beq_iff_eq] at h
      obtain ⟨rfl, h2⟩ := h
      rcases List.mem_cons.1 hc with rfl | hc
      · exact List.mem_cons_self _ _
      · exact List.mem_cons_of_mem _ (ih h2 c hc)

lemma urlMatchLen_none {s : List Char}
    (h : ∀ c ∈ s, isAsciiLower c = true ∨ c = ' ') : urlMatchLen s = none := by
  have hcolon : (':' : Char) ∉ s := by
    intro hc
    rcases h ':' hc with h1 | h1
    · exact absurd h1 (by decide)
    · exact absurd h1 (by decide)
  have h1 : prefixMatch ('h' :: 't' :: 't' :: 'p' :: 's' :: ':' :: '/' :: '/' :: []) s = false := by
    cases hp : prefixMatch ('h' :: 't' :: 't' :: 'p' :: 's' :: ':' :: '/' :: '/' :: []) s
    · rfl
    · exact absurd (prefixMatch_mem hp ':' (by simp)) hcolon
  have h2 : prefixMatch ('h' :: 't' :: 't' :: 'p' :: ':' :: '/' :: '/' :: []) s = false := by
    cases hp : prefixMatch ('h' :: 't' :: 't' :: 'p' :: ':' :: '/' :: '/' :: []) s
    · rfl
    · exact absurd (prefixMatch_mem hp ':' (by simp)) hcolon
  simp [urlMatchLen, h1, h2]

lemma stripUrlsAux_id :
    ∀ (fuel : Nat) (s : List Char), (∀ c ∈ s, isAsciiLower c = true ∨ c = ' ') →
      stripUrlsAux fuel s = s := by
  intro fuel
  induction fuel with
  | zero =>
    intro s _
    cases s <;> rfl
  | succ n ih =>
    intro s h
    cases s with
    | nil => rfl
    | cons x xs =>
      rw [stripUrlsAux, urlMatchLen_none h]
      rw [ih xs (fun c hc => h c (List.mem_cons_of_mem x hc))]

lemma replaceChar_id {c : Char} (h : isAsciiLower c = true ∨ c = ' ') :
    replaceChar c = c := by
  rcases h with h | rfl
  · simp [replaceChar, h]
  · decide

lemma replaceNonAlpha_id {s : List Char}
    (h : ∀ c ∈ s, isAsciiLower c = true ∨ c = ' ') : replaceNonAlpha s = s := by
  induction s with
  | nil => rfl
  | cons x xs ih =>
    simp only [replaceNonAlpha, List.map_cons]
    rw [replaceChar_id (h x (List.mem_cons_self x xs))]
    have := ih (fun c hc => h c (List.mem_cons_of_mem x hc))
    simp only [replaceNonAlpha] at this
    rw [this]

/-! ### Joining good words and re-splitting -/

lemma joinWithSpace_cons_cons (w y : List Char) (ys : List (List Char)) :
    joinWithSpace (w :: y :: ys) = w ++ ' ' :: joinWithSpace (y :: ys) := rfl

lemma join_chars {ws : List (List Char)}
    (h : ∀ w ∈ ws, ∀ c ∈ w, isAsciiLower c = true) :
    ∀ c ∈ joinWithSpace ws, isAsciiLower c = true ∨ c = ' ' := by
  induction ws with
  | nil => intro c hc; simp [joinWithSpace] at hc
  | cons w ws ih =>
    intro c hc
    cases ws with
    | nil =>
      exact Or.inl (h w (List.mem_cons_self _ _) c (by simpa [joinWithSpace] using hc))
    | cons y ys =>
      rw [joinWithSpace_cons_cons] at hc
      rcases List.mem_append.1 hc with hc | hc
      · exact Or.inl (h w (List.mem_cons_self _ _) c hc)
      · rcases List.mem_cons.1 hc with rfl | hc
        · exact Or.inr rfl
        · exact ih (fun v hv => h v (List.mem_cons_of_mem _ hv)) c hc

lemma join_head_not_space {y : List Char} (ys : List (List Char)) (hy : goodWord y) :
    ∃ d rest, joinWithSpace (y :: ys) = d :: rest ∧ jsIsSpace d = false := by
  obtain ⟨hne, hall⟩ := hy
  cases y with
  | nil => exact absurd rfl hne
  | cons d y' =>
    have hd : jsIsSpace d = false :=
      lower_not_space (hall d (List.mem_cons_self _ _))
    cases ys with
    | nil => exact ⟨d, y', rfl, hd⟩
    | cons z zs => exact ⟨d, y' ++ ' ' :: joinWithSpace (z :: zs), rfl, hd⟩

lemma join_ne_nil {y : List Char} (ys : List (List Char)) (hy : goodWord y) :
    joinWithSpace (y :: ys) ≠ [] := by
  obtain ⟨d, rest, heq, -⟩ := join_head_not_space ys hy
  rw [heq]
  exact List.cons_ne_nil d rest

lemma collapseAux_nonspace_head {x : Char} (s : List Char) (b : Bool)
    (hx : jsIsSpace x = false) :
    collapseSpacesAux b (x :: s) = x :: collapseSpacesAux false s := by
  cases b <;> simp [collapseSpacesAux, hx]

lemma collapseAux_word {w : List Char} (s : List Char)
    (hw : ∀ c ∈ w, isAsciiLower c = true) :
    collapseSpacesAux false (w ++ s) = w ++ collapseSpacesAux false s := by
  induction w with
  | nil => rfl
  | cons x xs ih =>
    have hx : jsIsSpace x = false :=
      lower_not_space (hw x (List.mem_cons_self _ _))
    rw [List.cons_append, collapseAux_nonspace_head (xs ++ s) false hx,
      ih (fun c hc => hw c (List.mem_cons_of_mem x hc)), List.cons_append]

lemma collapse_join_id {ws : List (List Char)} (h : ∀ w ∈ ws, goodWord w) :
    collapseSpacesAux false (joinWithSpace ws) = joinWithSpace ws := by
  induction ws with
  | nil => rfl
  | cons w ws ih =>
    have hw := h w (List.mem_cons_self _ _)
    cases ws with
    | nil =>
      have : collapseSpacesAux false (w ++ []) = w ++ collapseSpacesAux false [] :=
        collapseAux_word [] hw.2
      simpa [joinWithSpace, collapseSpacesAux] using this
    | cons y ys =>
      have hrest : ∀ v ∈ y :: ys, goodWord v := fun v hv => h v (List.mem_cons_of_mem _ hv)
      obtain ⟨d, rest, heq, hd⟩ := join_head_not_space ys (hrest y (List.mem_cons_self _ _))
      rw [joinWithSpace_cons_cons, collapseAux_word (' ' :: joinWithSpace (y :: ys)) hw.2]
      have h1 : collapseSpacesAux false (' ' :: joinWithSpace (y :: ys)) =
          ' ' :: collapseSpacesAux true (joinWithSpace (y :: ys)) := by
        simp [collapseSpacesAux, space_isSpace]
      have h2 : collapseSpacesAux true (joinWithSpace (y :: ys)) =
          collapseSpacesAux false (joinWithSpace (y :: ys)) := by
        rw [heq, collapseAux_nonspace_head rest true hd, collapseAux_nonspace_head rest false hd]
      rw [h1, h2, ih hrest]

lemma isEmpty_false_of_ne_nil {α : Type} {l : List α} (h : l ≠ []) : l.isEmpty = false := by
  cases l with
  | nil => exact absurd rfl h
  | cons x xs => rfl

lemma trimTrailing_cons (c : Char) (cs : List Char) :
    trimTrailing (c :: cs) =
      if (trimTrailing cs).isEmpty && jsIsSpace c then [] else c :: trimTrailing cs := rfl

lemma trimTrailing_id_nospace {s : List Char} (h : ∀ c ∈ s, jsIsSpace c = false) :
    trimTrailing s = s := by
  induction s with
  | nil => rfl
  | cons x xs ih =>
    rw [trimTrailing_cons, h x (List.mem_cons_self _ _), Bool.and_false,
      ih (fun c hc => h c (List.mem_cons_of_mem x hc))]
    rfl

lemma trimTrailing_append {x y : List Char} (hy : trimTrailing y ≠ []) :
    trimTrailing (x ++ y) = x ++ trimTrailing y := by
  induction x with
  | nil => rfl
  | cons c x' ih =>
    rw [List.cons_append, trimTrailing_cons, ih]
    have hne : x' ++ trimTrailing y ≠ [] := fun hh => hy (List.append_eq_nil.1 hh).2
    rw [isEmpty_false_of_ne_nil hne, Bool.false_and]
    rfl

lemma trimTrailing_join_id {ws : List (List Char)} (h : ∀ w ∈ ws, goodWord w) :
    trimTrailing (joinWithSpace ws) = joinWithSpace ws := by
  induction ws with
  | nil => rfl
  | cons w ws ih =>
    cases ws with
    | nil =>
      exact trimTrailing_id_nospace
        (fun c hc => lower_not_space ((h w (List.mem_cons_self _ _)).2 c hc))
    | cons y ys =>
      have hrest : ∀ v ∈ y :: ys, goodWord v := fun v hv => h v (List.mem_cons_of_mem _ hv)
      have hjn : joinWithSpace (y :: ys) ≠ [] := join_ne_nil ys (hrest y (List.mem_cons_self _ _))
      have h1 : trimTrailing (' ' :: joinWithSpace (y :: ys)) =
          ' ' :: joinWithSpace (y :: ys) := by
        rw [trimTrailing_cons, ih hrest, isEmpty_false_of_ne_nil hjn, Bool.false_and]
        rfl
      have h2 : trimTrailing (' ' :: joinWithSpace (y :: ys)) ≠ [] := by
        rw [h1]
        exact List.cons_ne_nil _ _
      rw [joinWithSpace_cons_cons, trimTrailing_append h2, h1]

lemma trim_join_id {ws : List (List Char)} (h : ∀ w ∈ ws, goodWord w) :
    jsTrim (joinWithSpace ws) = joinWithSpace ws := by
  cases ws with
  | nil => rfl
  | cons w ws' =>
    obtain ⟨d, rest, heq, hd⟩ :=
      join_head_not_space ws' (h w (List.mem_cons_self _ _))
    rw [jsTrim, heq, List.dropWhile_cons, hd]
    simp only [Bool.false_eq_true, if_false]
    rw [← heq, trimTrailing_join_id h]

lemma splitOnSpace_nospace {w : List Char} (h : ∀ c ∈ w, c ≠ ' ') :
    splitOnSpace w = [w] := by
  induction w with
  | nil => rfl
  | cons c cs ih =>
    have hc : (c == ' ') = false := by
      simpa using h c (List.mem_cons_self _ _)
    rw [splitOnSpace, hc, ih (fun d hd => h d (List.mem_cons_of_mem c hd))]
    simp

lemma splitOnSpace_word_append {w : List Char} (rest : List Char) (h : ∀ c ∈ w, c ≠ ' ') :
    splitOnSpace (w ++ ' ' :: rest) = w :: splitOnSpace rest := by
  induction w with
  | nil =>
    simp [splitOnSpace]
  | cons c cs ih =>
    have hc : (c == ' ') = false := by
      simpa using h c (List.mem_cons_self _ _)
    rw [List.cons_append, splitOnSpace, hc, ih (fun d hd => h d (List.mem_cons_of_mem c hd))]
    simp

lemma split_join {ws : List (List Char)} (h : ∀ w ∈ ws, goodWord w) (hne : ws ≠ []) :
    splitOnSpace (joinWithSpace ws) = ws := by
  induction ws with
  | nil => exact absurd rfl hne
  | cons w ws ih =>
    have hw := h w (List.mem_cons_self _ _)
    have hwns : ∀ c ∈ w, c ≠ ' ' := fun c hc => lower_ne_space (hw.2 c hc)
    cases ws with
    | nil => exact splitOnSpace_nospace hwns
    | cons y ys =>
      have hrest : ∀ v ∈ y :: ys, goodWord v := fun v hv => h v (List.mem_cons_of_mem _ hv)
      rw [joinWithSpace_cons_cons, splitOnSpace_word_append _ hwns,
        ih hrest (List.cons_ne_nil y ys)]

/-- Sanitization is the identity on a space-joined list of good words. -/
lemma sanitize_join {ws : List (List Char)} (h : ∀ w ∈ ws, goodWord w) :
    sanitizeText (joinWithSpace ws) = joinWithSpace ws := by
  cases ws with
  | nil => rfl
  | cons w ws' =>
    have hne : joinWithSpace (w :: ws') ≠ [] :=
      join_ne_nil ws' (h w (List.mem_cons_self _ _))
    have hchars : ∀ c ∈ joinWithSpace (w :: ws'), isAsciiLower c = true ∨ c = ' ' :=
      join_chars (fun v hv c hc => (h v hv).2 c hc)
    rw [sanitizeText, if_neg (by simp [isEmpty_false_of_ne_nil hne]),
      map_toLower_id hchars]
    rw [show stripUrls (joinWithSpace (w :: ws')) = joinWithSpace (w :: ws') from
      stripUrlsAux_id _ _ hchars]
    rw [replaceNonAlpha_id hchars]
    rw [show collapseSpaces (joinWithSpace (w :: ws')) = joinWithSpace (w :: ws') from
      collapse_join_id h]
    exact trim_join_id h

/-! ### The aggregation pass of `computeMetrics` -/

lemma bool_eq_false {b : Bool} (h : ¬ b = true) : b = false := by
  cases b
  · rfl
  · exact absurd rfl h

lemma pos_not_neg {s : List Char} (hp : posLabel s = true) : negLabel s = false := by
  rcases Bool.or_eq_true _ _ ▸ hp with h | h
  · rw [show s = "positive".data from by simpa using h]
    decide
  · rw [show s = "pos".data from by simpa using h]
    decide

lemma stepRow_total (acc : Metrics) (r : CsvRow) : (stepRow acc r).total = acc.total := by
  simp only [stepRow]
  split
  · rfl
  · split <;> rfl

lemma stepRow_lengthsOverall (acc : Metrics) (r : CsvRow) :
    (stepRow acc r).lengthsOverall =
      acc.lengthsOverall ++ [(tokenize (rowReview r).data).length] := by
  simp only [stepRow]
  split
  · rfl
  · split <;> rfl

lemma stepRow_posCount (acc : Metrics) (r : CsvRow) :
    (stepRow acc r).posCount =
      if posLabel (rowSentimentLower r) then acc.posCount + 1 else acc.posCount := by
  by_cases hp : posLabel (rowSentimentLower r) = true
  · simp [stepRow, hp]
  · have hp' := bool_eq_false hp
    by_cases hn : negLabel (rowSentimentLower r) = true
    · simp [stepRow, hp', hn]
    · simp [stepRow, hp', bool_eq_false hn]

lemma stepRow_negCount (acc : Metrics) (r : CsvRow) :
    (stepRow acc r).negCount =
      if posLabel (rowSentimentLower r) then acc.negCount
      else if negLabel (rowSentimentLower r) then acc.negCount + 1 else acc.negCount := by
  by_cases hp : posLabel (rowSentimentLower r) = true
  · simp [stepRow, hp]
  · have hp' := bool_eq_false hp
    by_cases hn : negLabel (rowSentimentLower r) = true
    · simp [stepRow, hp', hn]
    · simp [stepRow, hp', bool_eq_false hn]

lemma stepRow_posFreq (acc : Metrics) (r : CsvRow) :
    (stepRow acc r).posFreq =
      if posLabel (rowSentimentLower r) then
        (tokenize (rowReview r).data).foldl freqIncr acc.posFreq
      else acc.posFreq := by
  by_cases hp : posLabel (rowSentimentLower r) = true
  · simp [stepRow, hp]
  · have hp' := bool_eq_false hp
    by_cases hn : negLabel (rowSentimentLower r) = true
    · simp [stepRow, hp', hn]
    · simp [stepRow, hp', bool_eq_false hn]

lemma stepRow_negFreq (acc : Metrics) (r : CsvRow) :
    (stepRow acc r).negFreq =
      if posLabel (rowSentimentLower r) then acc.negFreq
      else if negLabel (rowSentimentLower r) then
        (tokenize (rowReview r).data).foldl freqIncr acc.negFreq
      else acc.negFreq := by
  by_cases hp : posLabel (rowSentimentLower r) = true
  · simp [stepRow, hp]
  · have hp' := bool_eq_false hp
    by_cases hn : negLabel (rowSentimentLower r) = true
    · simp [stepRow, hp', hn]
    · simp [stepRow, hp', bool_eq_false hn]

lemma stepRow_lengthsPos (acc : Metrics) (r : CsvRow) :
    (stepRow acc r).lengthsPos =
      if posLabel (rowSentimentLower r) then
        acc.lengthsPos ++ [(tokenize (rowReview r).data).length]
      else acc.lengthsPos := by
  by_cases hp : posLabel (rowSentimentLower r) = true
  · simp [stepRow, hp]
  · have hp' := bool_eq_false hp
    by_cases hn : negLabel (rowSentimentLower r) = true
    · simp [stepRow, hp', hn]
    · simp [stepRow, hp', bool_eq_false hn]

lemma stepRow_lengthsNeg (acc : Metrics) (r : CsvRow) :
    (stepRow acc r).lengthsNeg =
      if posLabel (rowSentimentLower r) then acc.lengthsNeg
      else if negLabel (rowSentimentLower r) then
        acc.lengthsNeg ++ [(tokenize (rowReview r).data).length]
      else acc.lengthsNeg := by
  by_cases hp : posLabel (rowSentimentLower r) = true
  · simp [stepRow, hp]
  · have hp' := bool_eq_false hp
    by_cases hn : negLabel (rowSentimentLower r) = true
    · simp [stepRow, hp', hn]
    · simp [stepRow, hp', bool_eq_false hn]

lemma foldl_stepRow_total : ∀ (rows : List CsvRow) (a : Metrics),
    (rows.foldl stepRow a).total = a.total := by
  intro rows
  induction rows with
  | nil => intro a; rfl
  | cons r rs ih =>
    intro a
    rw [List.foldl_cons, ih, stepRow_total]

lemma foldl_stepRow_congr : ∀ (rows : List CsvRow) (a b : Metrics),
    a.posCount = b.posCount → a.negCount = b.negCount → a.posFreq = b.posFreq →
    a.negFreq = b.negFreq → a.lengthsOverall = b.lengthsOverall →
    a.lengthsPos = b.lengthsPos → a.lengthsNeg = b.lengthsNeg →
    (rows.foldl stepRow a).posCount = (rows.foldl stepRow b).posCount ∧
    (rows.foldl stepRow a).negCount = (rows.foldl stepRow b).negCount ∧
    (rows.foldl stepRow a).posFreq = (rows.foldl stepRow b).posFreq ∧
    (rows.foldl stepRow a).negFreq = (rows.foldl stepRow b).negFreq ∧
    (rows.foldl stepRow a).lengthsOverall = (rows.foldl stepRow b).lengthsOverall ∧
    (rows.foldl stepRow a).lengthsPos = (rows.foldl stepRow b).lengthsPos ∧
    (rows.foldl stepRow a).lengthsNeg = (rows.foldl stepRow b).lengthsNeg := by
  intro rows
  induction rows with
  | nil =>
    intro a b h1 h2 h3 h4 h5 h6 h7
    exact ⟨h1, h2, h3, h4, h5, h6, h7⟩
  | cons r rs ih =>
    intro a b h1 h2 h3 h4 h5 h6 h7
    simp only [List.foldl_cons]
    exact ih _ _
      (by rw [stepRow_posCount, stepRow_posCount, h1])
      (by rw [stepRow_negCount, stepRow_negCount, h2])
      (by rw [stepRow_posFreq, stepRow_posFreq, h3])
      (by rw [stepRow_negFreq, stepRow_negFreq, h4])
      (by rw [stepRow_lengthsOverall, stepRow_lengthsOverall, h5])
      (by rw [stepRow_lengthsPos, stepRow_lengthsPos, h6])
      (by rw [stepRow_lengthsNeg, stepRow_lengthsNeg, h7])

lemma foldl_stepRow_posCount_len : ∀ (rows : List CsvRow) (a : Metrics),
    (rows.foldl stepRow a).posCount + a.lengthsPos.length =
      (rows.foldl stepRow a).lengthsPos.length + a.posCount := by
  intro rows
  induction rows with
  | nil => intro a; simp only [List.foldl_nil]; omega
  | cons r rs ih =>
    intro a
    simp only [List.foldl_cons]
    have h := ih (stepRow a r)
    rw [stepRow_posCount, stepRow_lengthsPos] at h
    by_cases hp : posLabel (rowSentimentLower r) = true
    · simp only [hp, if_true, List.length_append, List.length_singleton] at h
      omega
    · simp only [bool_eq_false hp, Bool.false_eq_true, if_false] at h
      omega

lemma foldl_stepRow_negCount_len : ∀ (rows : List CsvRow) (a : Metrics),
    (rows.foldl stepRow a).negCount + a.lengthsNeg.length =
      (rows.foldl stepRow a).lengthsNeg.length + a.negCount := by
  intro rows
  induction rows with
  | nil => intro a; simp only [List.foldl_nil]; omega
  | cons r rs ih =>
    intro a
    simp only [List.foldl_cons]
    have h := ih (stepRow a r)
    rw [stepRow_negCount, stepRow_lengthsNeg] at h
    by_cases hp : posLabel (rowSentimentLower r) = true
    · simp only [hp, if_true] at h
      omega
    · by_cases hn : negLabel (rowSentimentLower r) = true
      · simp only [bool_eq_false hp, Bool.false_eq_true, if_false, hn, if_true,
          List.length_append, List.length_singleton] at h
        omega
      · simp only [bool_eq_false hp, bool_eq_false hn, Bool.false_eq_true, if_false] at h
        omega

lemma sumValues_freqIncr (m : List (List Char × Nat)) (t : List Char) :
    sumValues (freqIncr m t) = sumValues m + 1 := by
  induction m with
  | nil => simp [freqIncr, sumValues]
  | cons e rest ih =>
    obtain ⟨k, v⟩ := e
    by_cases hk : k = t
    · subst hk
      simp [freqIncr, sumValues]
      omega
    · simp only [freqIncr, if_neg hk, sumValues, List.map_cons, List.sum_cons] at *
      omega

lemma sumValues_foldl_freqIncr : ∀ (tokens : List (List Char)) (m : List (List Char × Nat)),
    sumValues (tokens.foldl freqIncr m) = sumValues m + tokens.length := by
  intro tokens
  induction tokens with
  | nil => intro m; simp
  | cons t ts ih =>
    intro m
    simp only [List.foldl_cons, ih, sumValues_freqIncr, List.length_cons]
    omega

lemma foldl_stepRow_sumValues_pos : ∀ (rows : List CsvRow) (a : Metrics),
    sumValues (rows.foldl stepRow a).posFreq =
      sumValues a.posFreq +
        ((rows.filter (fun r => posLabel (rowSentimentLower r))).map
          (fun r => (tokenize (rowReview r).data).length)).sum := by
  intro rows
  induction rows with
  | nil => intro a; simp
  | cons r rs ih =>
    intro a
    simp only [List.foldl_cons, List.filter_cons]
    by_cases hp : posLabel (rowSentimentLower r) = true
    · simp only [hp, if_true, ih, stepRow_posFreq, sumValues_foldl_freqIncr,
        List.map_cons, List.sum_cons]
      omega
    · simp only [bool_eq_false hp, Bool.false_eq_true, if_false, ih, stepRow_posFreq]

lemma foldl_stepRow_sumValues_neg : ∀ (rows : List CsvRow) (a : Metrics),
    sumValues (rows.foldl stepRow a).negFreq =
      sumValues a.negFreq +
        ((rows.filter (fun r => negLabel (rowSentimentLower r))).map
          (fun r => (tokenize (rowReview r).data).length)).sum := by
  intro rows
  induction rows with
  | nil => intro a; simp
  | cons r rs ih =>
    intro a
    simp only [List.foldl_cons, List.filter_cons]
    by_cases hp : posLabel (rowSentimentLower r) = true
    · simp only [hp, pos_not_neg hp, Bool.false_eq_true, if_false, ih, stepRow_negFreq,
        if_true]
    · by_cases hn : negLabel (rowSentimentLower r) = true
      · simp only [hn, if_true, ih, stepRow_negFreq, bool_eq_false hp, Bool.false_eq_true,
          if_false, sumValues_foldl_freqIncr, List.map_cons, List.sum_cons]
        omega
      · simp only [bool_eq_false hp, bool_eq_false hn, Bool.false_eq_true, if_false, ih,
          stepRow_negFreq]

lemma foldl_stepRow_lengthsPos_sum : ∀ (rows : List CsvRow) (a : Metrics),
    (rows.foldl stepRow a).lengthsPos.sum =
      a.lengthsPos.sum +
        ((rows.filter (fun r => posLabel (rowSentimentLower r))).map
          (fun r => (tokenize (rowReview r).data).length)).sum := by
  intro rows
  induction rows with
  | nil => intro a; simp
  | cons r rs ih =>
    intro a
    simp only [List.foldl_cons, List.filter_cons]
    by_cases hp : posLabel (rowSentimentLower r) = true
    · simp only [hp, if_true, ih, stepRow_lengthsPos, List.sum_append, List.map_cons,
        List.sum_cons, List.sum_nil]
      omega
    · simp only [bool_eq_false hp, Bool.false_eq_true, if_false, ih, stepRow_lengthsPos]

lemma foldl_stepRow_lengthsNeg_sum : ∀ (rows : List CsvRow) (a : Metrics),
    (rows.foldl stepRow a).lengthsNeg.sum =
      a.lengthsNeg.sum +
        ((rows.filter (fun r => negLabel (rowSentimentLower r))).map
          (fun r => (tokenize (rowReview r).data).length)).sum := by
  intro rows
  induction rows with
  | nil => intro a; simp
  | cons r rs ih =>
    intro a
    simp only [List.foldl_cons, List.filter_cons]
    by_cases hp : posLabel (rowSentimentLower r) = true
    · simp only [hp, pos_not_neg hp, Bool.false_eq_true, if_false, ih, stepRow_lengthsNeg,
        if_true]
    · by_cases hn : negLabel (rowSentimentLower r) = true
      · simp only [hn, if_true, ih, stepRow_lengthsNeg, bool_eq_false hp, Bool.false_eq_true,
          if_false, List.sum_append, List.map_cons, List.sum_cons, List.sum_nil]
        omega
      · simp only [bool_eq_false hp, bool_eq_false hn, Bool.false_eq_true, if_false, ih,
          stepRow_lengthsNeg]

/-! ### The word table of `analyzeSentiment` -/

lemma tallyWord_word (b : Bool) (e : WordStats) : (tallyWord b e).word = e.word := by
  cases b <;> rfl

lemma tallyWord_total (b : Bool) (e : WordStats) : (tallyWord b e).total = e.total + 1 := by
  cases b <;> rfl

lemma sumTotals_bumpWord (b : Bool) (m : List WordStats) (w : List Char) :
    sumTotals (bumpWord b m w) = sumTotals m + 1 := by
  induction m with
  | nil => simp [bumpWord, sumTotals, tallyWord_total]
  | cons e rest ih =>
    by_cases he : e.word = w
    · simp only [bumpWord, if_pos he, sumTotals, List.map_cons, List.sum_cons,
        tallyWord_total]
      omega
    · simp only [bumpWord, if_neg he, sumTotals, List.map_cons, List.sum_cons] at *
      omega

lemma sumTotals_foldl_bump : ∀ (ws : List (List Char)) (b : Bool) (m : List WordStats),
    sumTotals (ws.foldl (fun a w => bumpWord b a w) m) = sumTotals m + ws.length := by
  intro ws
  induction ws with
  | nil => intro b m; simp
  | cons w ws ih =>
    intro b m
    simp only [List.foldl_cons, ih, sumTotals_bumpWord, List.length_cons]
    omega

lemma sumTotals_wordFrequencyAux : ∀ (msgs : List Message) (k : Nat) (acc : List WordStats),
    sumTotals (msgs.foldl
      (fun acc msg =>
        (splitWords msg.text k).foldl
          (fun a w => bumpWord (msg.sentiment == "positive".data) a w) acc) acc) =
      sumTotals acc + ((msgs.map (fun m => (splitWords m.text k).length)).sum) := by
  intro msgs
  induction msgs with
  | nil => intro k acc; simp
  | cons m ms ih =>
    intro k acc
    simp only [List.foldl_cons, ih, sumTotals_foldl_bump, List.map_cons, List.sum_cons]
    omega

lemma sumTotals_wordFrequencyOf (msgs : List Message) (k : Nat) :
    sumTotals (wordFrequencyOf msgs k) =
      ((msgs.map (fun m => (splitWords m.text k).length)).sum) := by
  have h := sumTotals_wordFrequencyAux msgs k []
  simpa [wordFrequencyOf, sumTotals] using h

lemma bumpWord_keys (b : Bool) (m : List WordStats) (w : List Char) :
    (bumpWord b m w).map WordStats.word =
      if w ∈ m.map WordStats.word then m.map WordStats.word
      else m.map WordStats.word ++ [w] := by
  induction m with
  | nil => simp [bumpWord, tallyWord_word]
  | cons e rest ih =>
    by_cases he : e.word = w
    · subst he
      simp [bumpWord, tallyWord_word]
    · have he' : ¬(w = e.word) := fun h => he h.symm
      simp only [bumpWord, if_neg he, List.map_cons, ih, List.mem_cons]
      by_cases hm : w ∈ rest.map WordStats.word
      · simp [hm, he']
      · simp [hm, he']

lemma foldl_bump_keys_mem : ∀ (ws : List (List Char)) (b : Bool) (m : List WordStats)
    (x : List Char),
    (x ∈ (ws.foldl (fun a w => bumpWord b a w) m).map WordStats.word ↔
      x ∈ m.map WordStats.word ∨ x ∈ ws) := by
  intro ws
  induction ws with
  | nil => intro b m x; simp
  | cons w ws ih =>
    intro b m x
    simp only [List.foldl_cons, ih, bumpWord_keys, List.mem_cons]
    by_cases hw : w ∈ m.map WordStats.word
    · simp only [hw, if_true]
      constructor
      · rintro (h | h)
        · exact Or.inl h
        · exact Or.inr (Or.inr h)
      · rintro (h | rfl | h)
        · exact Or.inl h
        · exact Or.inl hw
        · exact Or.inr h
    · simp only [hw, Bool.false_eq_true, if_false, List.mem_append, List.mem_singleton]
      tauto

lemma foldl_bump_keys_nodup : ∀ (ws : List (List Char)) (b : Bool) (m : List WordStats),
    (m.map WordStats.word).Nodup →
      ((ws.foldl (fun a w => bumpWord b a w) m).map WordStats.word).Nodup := by
  intro ws
  induction ws with
  | nil => intro b m h; exact h
  | cons w ws ih =>
    intro b m h
    simp only [List.foldl_cons]
    apply ih
    rw [bumpWord_keys]
    by_cases hw : w ∈ m.map WordStats.word
    · simpa [hw] using h
    · simp [hw, List.nodup_append, h]

lemma wordFrequencyAux_keys_mem : ∀ (msgs : List Message) (k : Nat) (acc : List WordStats)
    (x : List Char),
    (x ∈ ((msgs.foldl
      (fun acc msg =>
        (splitWords msg.text k).foldl
          (fun a w => bumpWord (msg.sentiment == "positive".data) a w) acc) acc).map
        WordStats.word) ↔
      x ∈ acc.map WordStats.word ∨ x ∈ allWords msgs k) := by
  intro msgs
  induction msgs with
  | nil => intro k acc x; simp [allWords]
  | cons m ms ih =>
    intro k acc x
    simp only [List.foldl_cons, ih, foldl_bump_keys_mem, allWords, List.map_cons,
      List.flatten_cons, List.mem_append]
    constructor
    · rintro ((h | h) | h)
      · exact Or.inl h
      · exact Or.inr (Or.inl h)
      · exact Or.inr (Or.inr (by simpa [allWords] using h))
    · rintro (h | h | h)
      · exact Or.inl (Or.inl h)
      · exact Or.inl (Or.inr h)
      · exact Or.inr (by simpa [allWords] using h)

lemma wordFrequencyOf_keys_mem (msgs : List Message) (k : Nat) (x : List Char) :
    x ∈ (wordFrequencyOf msgs k).map WordStats.word ↔ x ∈ allWords msgs k := by
  have h := wordFrequencyAux_keys_mem msgs k [] x
  simpa [wordFrequencyOf] using h

lemma wordFrequencyOf_keys_nodup (msgs : List Message) (k : Nat) :
    ((wordFrequencyOf msgs k).map WordStats.word).Nodup := by
  have : (([] : List WordStats).map WordStats.word).Nodup := by simp
  have h : ∀ (acc : List WordStats), (acc.map WordStats.word).Nodup →
      ((msgs.foldl
        (fun acc msg =>
          (splitWords msg.text k).foldl
            (fun a w => bumpWord (msg.sentiment == "positive".data) a w) acc) acc).map
          WordStats.word).Nodup := by
    induction msgs with
    | nil => intro acc hacc; exact hacc
    | cons m ms ih =>
      intro acc hacc
      simp only [List.foldl_cons]
      exact ih _ (foldl_bump_keys_nodup _ _ _ hacc)
  exact h [] this

/-! ### Claim theorems -/

/-- C4 (amended): in `docs/main.js`, `topEntries` returns the frequency-table
entries sorted in descending order of count, stably — entries with equal
counts keep the `Map`'s order, which `freqIncr` maintains as first-insertion
order — truncated to at most `k` entries (the model sort is the stable sort
required of ES2019 `Array.prototype.sort` with comparator
`(a, b) => b[1] - a[1]`).  In `SentimentAnalysis.tsx`, `topWords` is the
stable descending-by-`total` sort, truncated to 20, of the entries in
`Object.values` order — and that order lists array-index keys (digit-only
tokens) first in ascending numeric order, so the first-insertion tie-break
asserted by the original claim fails there: see the counterexample. -/
theorem c4_topEntries_sorted_stable_truncated (m : List (List Char × Nat)) (k : Nat)
    (t : List Char) (c : Nat) (msgs : List Message) (minLen c' : Nat) :
    (topEntries m k).length ≤ k ∧
    (topEntries m k).Pairwise (fun a b => b.2 ≤ a.2) ∧
    (sortDescBy Prod.snd m).filter (fun e => e.2 == c) = m.filter (fun e => e.2 == c) ∧
    List.Perm (sortDescBy Prod.snd m) m ∧
    topEntries m k = (sortDescBy Prod.snd m).take k ∧
    (freqIncr m t).map Prod.fst =
      (if t ∈ m.map Prod.fst then m.map Prod.fst else m.map Prod.fst ++ [t]) ∧
    (analyzeSentiment msgs minLen).topWords =
      (sortDescBy WordStats.total (objectValues (wordFrequencyOf msgs minLen))).take 20 ∧
    (analyzeSentiment msgs minLen).topWords.length ≤ 20 ∧
    (analyzeSentiment msgs minLen).topWords.Pairwise (fun a b => b.total ≤ a.total) ∧
    (sortDescBy WordStats.total (objectValues (wordFrequencyOf msgs minLen))).filter
        (fun e => e.total == c') =
      (objectValues (wordFrequencyOf msgs minLen)).filter (fun e => e.total == c') := by
  refine ⟨?_, ?_, filter_sortDescBy _ _ _, perm_sortDescBy _ _, rfl, freqIncr_keys m t,
    rfl, ?_, ?_, filter_sortDescBy _ _ _⟩
  · rw [topEntries, List.length_take]
    exact min_le_left _ _
  · exact (pairwise_sortDescBy Prod.snd m).sublist (List.take_sublist k _)
  · show ((sortDescBy WordStats.total
        (objectValues (wordFrequencyOf msgs minLen))).take 20).length ≤ 20
    rw [List.length_take]
    exact min_le_left _ _
  · show ((sortDescBy WordStats.total
        (objectValues (wordFrequencyOf msgs minLen))).take 20).Pairwise
        (fun a b => b.total ≤ a.total)
    exact (pairwise_sortDescBy WordStats.total _).sublist (List.take_sublist 20 _)

/-- C4 counterexample: for the single positive message `movie 1998` (with the
default minimum word length 3) both words tie at count 1; `movie` is created
first in the word table, yet `topWords` lists the digit-only key `1998`
first, because `Object.values` enumerates array-index keys before the
creation-ordered string keys — so the tie is not broken by original
first-insertion order in `SentimentAnalysis.tsx`. -/
theorem c4_counterexample :
    (wordFrequencyOf [⟨"movie 1998".data, "positive".data⟩] 3).map WordStats.word =
      ["movie".data, "1998".data] ∧
    (analyzeSentiment [⟨"movie 1998".data, "positive".data⟩] 3).topWords.map
      (fun e => (e.word, e.total)) = [("1998".data, 1), ("movie".data, 1)] ∧
    ¬((analyzeSentiment [⟨"movie 1998".data, "positive".data⟩] 3).topWords.map
        WordStats.word =
      (wordFrequencyOf [⟨"movie 1998".data, "positive".data⟩] 3).map WordStats.word) := by
  decide

/-- C10: every token produced by the `docs/main.js` tokenizer lies outside the
fixed English stopword set; the removal is hard-coded in `tokenize`, with no
configuration to disable it. -/
theorem c10_tokenize_no_stopwords (text : List Char) :
    (tokenize text).all (fun w => !(isStopword w)) = true := by
  rw [List.all_eq_true]
  intro w hw
  have h := (tokenize_token_props hw).2.2
  simp [h]

lemma filtered_split_sanitize_join {ws : List (List Char)} (p : List Char → Bool)
    (h : ∀ w ∈ ws, goodWord w) (hp : ∀ w ∈ ws, p w = true) :
    (if (sanitizeText (joinWithSpace ws)).isEmpty then []
     else (splitOnSpace (sanitizeText (joinWithSpace ws))).filter p) = ws := by
  cases ws with
  | nil => rfl
  | cons w ws' =>
    have hne := join_ne_nil ws' (h w (List.mem_cons_self _ _))
    rw [sanitize_join h, if_neg (by simp [isEmpty_false_of_ne_nil hne]),
      split_join h (List.cons_ne_nil w ws'), List.filter_eq_self.2 hp]

/-- C5: tokenization is idempotent — joining the output tokens with single
spaces and tokenizing again gives the same token list.  Proved both for the
spec's `removeStopwords = false` configuration (`tokenizeKeepStop`) and for
the tokenizer of `docs/main.js` (which always removes stopwords). -/
theorem c5_tokenize_idempotent (t : List Char) :
    tokenizeKeepStop (joinWithSpace (tokenizeKeepStop t)) = tokenizeKeepStop t ∧
    tokenize (joinWithSpace (tokenize t)) = tokenize t := by
  constructor
  · have hgood : ∀ w ∈ tokenizeKeepStop t, goodWord w := by
      intro w hw
      obtain ⟨h1, h2⟩ := tokenizeKeepStop_token_props hw
      exact ⟨h1, h2⟩
    have hp : ∀ w ∈ tokenizeKeepStop t, (!w.isEmpty) = true := by
      intro w hw
      simp [isEmpty_false_of_ne_nil (tokenizeKeepStop_token_props hw).1]
    simp only [tokenizeKeepStop]
    exact filtered_split_sanitize_join _ hgood hp
  · have hgood : ∀ w ∈ tokenize t, goodWord w := by
      intro w hw
      obtain ⟨h1, h2, h3⟩ := tokenize_token_props hw
      exact ⟨h1, h2⟩
    have hp : ∀ w ∈ tokenize t, (!w.isEmpty && !isStopword w) = true := by
      intro w hw
      obtain ⟨h1, h2, h3⟩ := tokenize_token_props hw
      simp [isEmpty_false_of_ne_nil h1, h3]
    simp only [tokenize]
    exact filtered_split_sanitize_join _ hgood hp

/-- C3 (amended): every token emitted by the `docs/main.js` tokenizer is a
non-empty all-lowercase alphabetic word, because `sanitizeText` replaces every
character that is not a lowercase letter or whitespace by a single space
before splitting.  As originally stated the claim fails for the word split of
`SentimentAnalysis.tsx`, which deletes punctuation outright (no word boundary)
and keeps digits and underscores: see the counterexample. -/
theorem c3_tokens_alphabetic (t w : List Char) (h : w ∈ tokenize t) :
    w ≠ [] ∧ ∀ c ∈ w, isAsciiLower c = true :=
  ⟨(tokenize_token_props h).1, (tokenize_token_props h).2.1⟩

theorem c3_tokens_alphabetic_witness :
    "hi".data ≠ [] ∧ ∀ c ∈ "hi".data, isAsciiLower c = true :=
  c3_tokens_alphabetic "hi there".data "hi".data (by decide)

/-- C3 counterexample: the word split of `SentimentAnalysis.tsx` emits
`a_1b` (digits and underscore survive its `\w` filter) and merges `ab.cd`
into the single token `abcd` (punctuation deleted, not a word boundary),
while the `docs/main.js` tokenizer yields `ab`, `cd` for the same input. -/
theorem c3_counterexample :
    splitWords "a_1b!".data 3 = ["a_1b".data] ∧
    ("a_1b".data).all isAsciiLower = false ∧
    splitWords "ab.cd".data 3 = ["abcd".data] ∧
    tokenize "ab.cd".data = ["ab".data, "cd".data] := by
  decide

/-- C8: the Dirichlet-smoothed log-odds score is strictly monotone in the
positive frequency of a term, holding the negative frequency and the totals
fixed. -/
theorem c8_logOdds_monotone (alpha fp1 fp2 fn tp tn : ℝ)
    (halpha : 0 < alpha) (h0 : 0 ≤ fp1) (h12 : fp1 < fp2) (h2 : fp2 ≤ tp) :
    logOdds alpha fp1 fn tp tn < logOdds alpha fp2 fn tp tn := by
  unfold logOdds
  apply sub_lt_sub_right
  apply Real.log_lt_log
  · exact div_pos (by linarith) (by linarith)
  · rw [div_lt_div_iff₀ (by linarith) (by linarith)]
    nlinarith [mul_pos (sub_pos.2 h12) (by linarith : (0 : ℝ) < tp + 2 * alpha)]

theorem c8_logOdds_monotone_witness :
    logOdds 1 0 0 2 5 < logOdds 1 1 0 2 5 :=
  c8_logOdds_monotone 1 0 1 0 2 5 (by norm_num) (by norm_num) (by norm_num) (by norm_num)

/-- C9 (amended): in `docs/main.js` the review text comes from the first
present column among `review`, `text`, `content` and the label from the first
present among `sentiment`, `label`; the label is lowercased and
`positive`/`pos` count as positive, `negative`/`neg` as negative, and any
other value is counted in neither class.  As originally stated the claim
fails for `SentimentAnalysis.tsx`, whose loader reads only the `review` and
`sentiment` columns: see the counterexample. -/
theorem c9_column_aliases_and_labels (v : String) (o1 o2 o3 o4 : Option String)
    (acc : Metrics) (r : CsvRow) :
    rowReview ⟨some v, o1, o2, o3, o4⟩ = v ∧
    rowReview ⟨none, some v, o2, o3, o4⟩ = v ∧
    rowReview ⟨none, none, some v, o3, o4⟩ = v ∧
    rowReview ⟨none, none, none, o3, o4⟩ = "" ∧
    rowSentimentLower ⟨o1, o2, o3, some v, o4⟩ = v.data.map jsToLower ∧
    rowSentimentLower ⟨o1, o2, o3, none, some v⟩ = v.data.map jsToLower ∧
    rowSentimentLower ⟨o1, o2, o3, none, none⟩ = [] ∧
    ((stepRow acc r).posCount =
      if posLabel (rowSentimentLower r) then acc.posCount + 1 else acc.posCount) ∧
    ((stepRow acc r).negCount =
      if posLabel (rowSentimentLower r) then acc.negCount
      else if negLabel (rowSentimentLower r) then acc.negCount + 1 else acc.negCount) ∧
    posLabel "positive".data = true ∧ posLabel "pos".data = true ∧
    negLabel "negative".data = true ∧ negLabel "neg".data = true ∧
    posLabel "neutral".data = false ∧ negLabel "neutral".data = false := by
  refine ⟨rfl, rfl, rfl, rfl, rfl, rfl, rfl, stepRow_posCount acc r, stepRow_negCount acc r,
    by decide, by decide, by decide, by decide, by decide, by decide⟩

/-- C9 counterexample: a row whose review sits in the `text` column and whose
label sits in the `label` column is accepted via the alias chain by
`parseCsvText` of `docs/main.js`, but dropped entirely by `loadData` of
`SentimentAnalysis.tsx`, so its review text is not taken from the first
present alias column there. -/
theorem c9_counterexample :
    loadDataRows [⟨none, some "good movie", none, none, some "positive"⟩] = [] ∧
    parseCsvRows [⟨none, some "good movie", none, none, some "positive"⟩] =
      [⟨some "good movie", some "positive"⟩] := by
  decide

/-- C1 (amended): a row whose sentiment value is not a recognized
positive/negative value is excluded from the per-class counts and from both
frequency tables, and processing it raises no error (the model is total); but
contrary to the original claim it IS counted in the `total` review count and
contributes an entry to `lengthsOverall`. -/
theorem c1_unrecognized_row (rows : List CsvRow) (r : CsvRow)
    (hp : posLabel (rowSentimentLower r) = false)
    (hn : negLabel (rowSentimentLower r) = false) :
    (computeMetrics (rows ++ [r])).posCount = (computeMetrics rows).posCount ∧
    (computeMetrics (rows ++ [r])).negCount = (computeMetrics rows).negCount ∧
    (computeMetrics (rows ++ [r])).posFreq = (computeMetrics rows).posFreq ∧
    (computeMetrics (rows ++ [r])).negFreq = (computeMetrics rows).negFreq ∧
    (computeMetrics (rows ++ [r])).total = (computeMetrics rows).total + 1 ∧
    (computeMetrics (rows ++ [r])).lengthsOverall =
      (computeMetrics rows).lengthsOverall ++ [(tokenize (rowReview r).data).length] := by
  have hlen : (rows ++ [r]).length = rows.length + 1 := by simp
  have hsplit : computeMetrics (rows ++ [r]) =
      stepRow (rows.foldl stepRow
        { total := rows.length + 1, lengthsOverall := [], lengthsPos := [],
          lengthsNeg := [], posCount := 0, negCount := 0, posFreq := [], negFreq := [] }) r := by
    rw [computeMetrics, hlen, List.foldl_append, List.foldl_cons, List.foldl_nil]
  obtain ⟨e1, e2, e3, e4, e5, e6, e7⟩ := foldl_stepRow_congr rows
    { total := rows.length + 1, lengthsOverall := [], lengthsPos := [],
      lengthsNeg := [], posCount := 0, negCount := 0, posFreq := [], negFreq := [] }
    { total := rows.length, lengthsOverall := [], lengthsPos := [],
      lengthsNeg := [], posCount := 0, negCount := 0, posFreq := [], negFreq := [] }
    rfl rfl rfl rfl rfl rfl rfl
  refine ⟨?_, ?_, ?_, ?_, ?_, ?_⟩
  · rw [hsplit, stepRow_posCount, hp, computeMetrics]
    simp only [Bool.false_eq_true, if_false]
    exact e1
  · rw [hsplit, stepRow_negCount, hp, hn, computeMetrics]
    simp only [Bool.false_eq_true, if_false]
    exact e2
  · rw [hsplit, stepRow_posFreq, hp, computeMetrics]
    simp only [Bool.false_eq_true, if_false]
    exact e3
  · rw [hsplit, stepRow_negFreq, hp, hn, computeMetrics]
    simp only [Bool.false_eq_true, if_false]
    exact e4
  · rw [hsplit, stepRow_total, foldl_stepRow_total, computeMetrics, foldl_stepRow_total]
  · rw [hsplit, stepRow_lengthsOverall, computeMetrics, e5]

theorem c1_unrecognized_row_witness :
    (computeMetrics ([⟨some "nice film", none, none, some "positive", none⟩] ++
        [⟨some "great movie", none, none, some "neutral", none⟩])).posCount =
      (computeMetrics [⟨some "nice film", none, none, some "positive", none⟩]).posCount ∧
    (computeMetrics ([⟨some "nice film", none, none, some "positive", none⟩] ++
        [⟨some "great movie", none, none, some "neutral", none⟩])).negCount =
      (computeMetrics [⟨some "nice film", none, none, some "positive", none⟩]).negCount ∧
    (computeMetrics ([⟨some "nice film", none, none, some "positive", none⟩] ++
        [⟨some "great movie", none, none, some "neutral", none⟩])).posFreq =
      (computeMetrics [⟨some "nice film", none, none, some "positive", none⟩]).posFreq ∧
    (computeMetrics ([⟨some "nice film", none, none, some "positive", none⟩] ++
        [⟨some "great movie", none, none, some "neutral", none⟩])).negFreq =
      (computeMetrics [⟨some "nice film", none, none, some "positive", none⟩]).negFreq ∧
    (computeMetrics ([⟨some "nice film", none, none, some "positive", none⟩] ++
        [⟨some "great movie", none, none, some "neutral", none⟩])).total =
      (computeMetrics [⟨some "nice film", none, none, some "positive", none⟩]).total + 1 ∧
    (computeMetrics ([⟨some "nice film", none, none, some "positive", none⟩] ++
        [⟨some "great movie", none, none, some "neutral", none⟩])).lengthsOverall =
      (computeMetrics [⟨some "nice film", none, none, some "positive", none⟩]).lengthsOverall ++
        [(tokenize (rowReview ⟨some "great movie", none, none, some "neutral", none⟩).data).length] :=
  c1_unrecognized_row [⟨some "nice film", none, none, some "positive", none⟩]
    ⟨some "great movie", none, none, some "neutral", none⟩ (by decide) (by decide)

/-- C1 counterexample: a single row labelled `neutral` is excluded from the
class counts and both frequency tables, but the claim's statement that it is
excluded from the total review count is false: `total` is `1`, not `0`; and in
`SentimentAnalysis.tsx` the words of a neutral row are tallied into the
negative column of the word table rather than excluded. -/
theorem c1_counterexample :
    (computeMetrics [⟨some "great movie", none, none, some "neutral", none⟩]).total = 1 ∧
    (computeMetrics [⟨some "great movie", none, none, some "neutral", none⟩]).posCount = 0 ∧
    (computeMetrics [⟨some "great movie", none, none, some "neutral", none⟩]).negCount = 0 ∧
    (computeMetrics [⟨some "great movie", none, none, some "neutral", none⟩]).posFreq = [] ∧
    (computeMetrics [⟨some "great movie", none, none, some "neutral", none⟩]).negFreq = [] ∧
    ¬((computeMetrics [⟨some "great movie", none, none, some "neutral", none⟩]).total = 0) ∧
    (wordFrequencyOf [⟨"great movie".data, "neutral".data⟩] 3).map
      (fun e => (e.word, e.negative)) = [("great".data, 1), ("movie".data, 1)] := by
  decide

/-- C2 (amended): the sum of the per-label counts in a label's frequency table
is at most the total number of filter-surviving token occurrences across that
label's reviews (not the number of reviews — the counterexample shows the sum
exceeding the review count), and the vocabulary size (number of distinct keys
of the word table) equals the number of distinct filtered tokens across all
considered reviews. -/
theorem c2_freq_sums_and_vocab (rows : List CsvRow) (msgs : List Message) (k : Nat) :
    sumValues (computeMetrics rows).posFreq ≤
      ((rows.filter (fun r => posLabel (rowSentimentLower r))).map
        (fun r => (tokenize (rowReview r).data).length)).sum ∧
    sumValues (computeMetrics rows).negFreq ≤
      ((rows.filter (fun r => negLabel (rowSentimentLower r))).map
        (fun r => (tokenize (rowReview r).data).length)).sum ∧
    ((wordFrequencyOf msgs k).map WordStats.word).Nodup ∧
    (∀ x, x ∈ (wordFrequencyOf msgs k).map WordStats.word ↔ x ∈ allWords msgs k) ∧
    ((wordFrequencyOf msgs k).map WordStats.word).length = (allWords msgs k).toFinset.card := by
  refine ⟨?_, ?_, wordFrequencyOf_keys_nodup msgs k,
    fun x => wordFrequencyOf_keys_mem msgs k x, ?_⟩
  · rw [computeMetrics]
    exact le_of_eq (by simpa [sumValues] using (foldl_stepRow_sumValues_pos rows
      { total := rows.length, lengthsOverall := [], lengthsPos := [], lengthsNeg := [],
        posCount := 0, negCount := 0, posFreq := [], negFreq := [] }))
  · rw [computeMetrics]
    exact le_of_eq (by simpa [sumValues] using (foldl_stepRow_sumValues_neg rows
      { total := rows.length, lengthsOverall := [], lengthsPos := [], lengthsNeg := [],
        posCount := 0, negCount := 0, posFreq := [], negFreq := [] }))
  · have hnd := wordFrequencyOf_keys_nodup msgs k
    have hts : ((wordFrequencyOf msgs k).map WordStats.word).toFinset =
        (allWords msgs k).toFinset :=
      Finset.ext (fun x => by
        simp only [List.mem_toFinset]
        exact wordFrequencyOf_keys_mem msgs k x)
    rw [← List.toFinset_card_of_nodup hnd, hts]

/-- C2 counterexample: one positive review with repeated words makes the sum
of the positive frequency table `4` while the number of positive reviews is
`1`, refuting "sum of per-label counts ≤ total reviews of that label". -/
theorem c2_counterexample :
    sumValues (computeMetrics
      [⟨some "great great movie movie", none, none, some "positive", none⟩]).posFreq = 4 ∧
    (computeMetrics
      [⟨some "great great movie movie", none, none, some "positive", none⟩]).posCount = 1 ∧
    ¬(sumValues (computeMetrics
        [⟨some "great great movie movie", none, none, some "positive", none⟩]).posFreq ≤
      (computeMetrics
        [⟨some "great great movie movie", none, none, some "positive", none⟩]).posCount) := by
  decide

/-- C6: for each per-label frequency table of `computeMetrics` the sum of its
values equals the total number of filter-surviving tokens across that label's
reviews, and in `SentimentAnalysis.tsx` the sum of the `total` fields of the
word table equals the number of length-filtered words across all messages. -/
theorem c6_freq_sum_eq_token_count (rows : List CsvRow) (msgs : List Message) (k : Nat) :
    sumValues (computeMetrics rows).posFreq =
      ((rows.filter (fun r => posLabel (rowSentimentLower r))).map
        (fun r => (tokenize (rowReview r).data).length)).sum ∧
    sumValues (computeMetrics rows).negFreq =
      ((rows.filter (fun r => negLabel (rowSentimentLower r))).map
        (fun r => (tokenize (rowReview r).data).length)).sum ∧
    sumTotals (wordFrequencyOf msgs k) =
      ((msgs.map (fun m => (splitWords m.text k).length)).sum) := by
  refine ⟨?_, ?_, sumTotals_wordFrequencyOf msgs k⟩
  · rw [computeMetrics]
    exact (by simpa [sumValues] using (foldl_stepRow_sumValues_pos rows
      { total := rows.length, lengthsOverall := [], lengthsPos := [], lengthsNeg := [],
        posCount := 0, negCount := 0, posFreq := [], negFreq := [] }))
  · rw [computeMetrics]
    exact (by simpa [sumValues] using (foldl_stepRow_sumValues_neg rows
      { total := rows.length, lengthsOverall := [], lengthsPos := [], lengthsNeg := [],
        posCount := 0, negCount := 0, posFreq := [], negFreq := [] }))

/-- C7: the average lengths are computed behind explicit zero-count guards:
with zero qualifying reviews for a class the average is exactly `0` (never a
division by zero), in both variants. -/
theorem c7_zero_guard (rows : List CsvRow) (msgs : List Message) (k : Nat) :
    ((computeMetrics rows).posCount = 0 → (computeMetricsOut rows).avgPos = 0) ∧
    ((computeMetrics rows).negCount = 0 → (computeMetricsOut rows).avgNeg = 0) ∧
    (rows = [] → (computeMetricsOut rows).avgOverall = 0) ∧
    (msgs.filter (fun m => m.sentiment == "positive".data) = [] →
      (analyzeSentiment msgs k).avgLengthPositive = 0) ∧
    (msgs.filter (fun m => m.sentiment == "negative".data) = [] →
      (analyzeSentiment msgs k).avgLengthNegative = 0) := by
  refine ⟨?_, ?_, ?_, ?_, ?_⟩
  · intro h
    have hinv := foldl_stepRow_posCount_len rows
      { total := rows.length, lengthsOverall := [], lengthsPos := [], lengthsNeg := [],
        posCount := 0, negCount := 0, posFreq := [], negFreq := [] }
    rw [computeMetrics] at h
    show avgQ (computeMetrics rows).lengthsPos = 0
    rw [computeMetrics, avgQ, if_pos (by simp only [List.length_nil] at hinv; omega)]
  · intro h
    have hinv := foldl_stepRow_negCount_len rows
      { total := rows.length, lengthsOverall := [], lengthsPos := [], lengthsNeg := [],
        posCount := 0, negCount := 0, posFreq := [], negFreq := [] }
    rw [computeMetrics] at h
    show avgQ (computeMetrics rows).lengthsNeg = 0
    rw [computeMetrics, avgQ, if_pos (by simp only [List.length_nil] at hinv; omega)]
  · intro h
    subst h
    rfl
  · intro h
    simp [analyzeSentiment, h]
  · intro h
    simp [analyzeSentiment, h]

theorem c7_zero_guard_witness :
    (computeMetricsOut []).avgPos = 0 ∧ (computeMetricsOut []).avgNeg = 0 ∧
    (computeMetricsOut []).avgOverall = 0 ∧
    (analyzeSentiment [] 3).avgLengthPositive = 0 ∧
    (analyzeSentiment [] 3).avgLengthNegative = 0 :=
  ⟨(c7_zero_guard [] [] 3).1 rfl, (c7_zero_guard [] [] 3).2.1 rfl,
   (c7_zero_guard [] [] 3).2.2.1 rfl, (c7_zero_guard [] [] 3).2.2.2.1 rfl,
   (c7_zero_guard [] [] 3).2.2.2.2 rfl⟩
